import Mathlib

/-!
Verification of the js-immutable selector/transform engine (`src/index.js`).

The JavaScript code is embedded shallowly with an explicit heap so that
reference identity (`===`) and in-place mutation are observable:

* `JVal` is a JavaScript value: primitives carry their value, functions are
  opaque identifiers into a function environment `FEnv`, and objects/arrays
  are references (`JVal.ref`) into a heap.
* `Heap` is a list of `Node`s; the address of a node is its index, a fresh
  allocation appends at the end (`h ++ [nd]`, address `h.length`), and an
  in-place property write is `List.set`.
* JavaScript `===` between values is `JVal` equality: for objects/arrays this
  compares addresses, i.e. reference identity.

Fidelity notes, recorded once here:
* Property lists keep insertion order; JavaScript's reordering of
  integer-like keys ahead of string keys in enumeration is not modelled
  (no claim depends on it).
* Arrays are dense lists; sparse arrays (holes) are not modelled.
* A string primitive exposes its characters as indexed own properties
  (as `Object.assign` sees them), matching JavaScript.
* Dangling references do not occur in JavaScript and carry no behaviour here.
-/

namespace JsImmutable

/-- A JavaScript value. `ref` points into the heap (object or array);
`fn` is a function value, identified by an index into a function
environment. Equality of `JVal` is JavaScript `===`. -/
inductive JVal : Type where
  | null : JVal
  | undef : JVal
  | str : String → JVal
  | num : Int → JVal
  | bool : Bool → JVal
  | fn : Nat → JVal
  | ref : Nat → JVal
deriving DecidableEq

/-- A heap node: a plain object (ordered field list) or an array. -/
inductive Node : Type where
  | objN : List (String × JVal) → Node
  | arrN : List JVal → Node
deriving DecidableEq

/-- The heap: address = list index, allocation = append at the end. -/
abbrev Heap := List Node

/-- Environment interpreting function values (payloads of `pipe`).
A function takes the current heap and the argument and returns the
possibly extended heap and the result. -/
abbrev FEnv := Nat → Heap → JVal → Heap × JVal

/-- The sentinel pointer string of the selector language. -/
def hashStr : String := "#"

/-- The reserved ledger slot that the pointer `"#"` is normalized to. -/
def defaultStr : String := "default"

/-- The message of the error thrown at a leaf when no operation was queued
(`src/index.js` line 233). -/
def errNoOperation : String :=
  "Should at least has a one operation intended before applying changes"

/-- `s.startsWith('#')`: the string begins with the sentinel character. -/
def isMarkerStr (s : String) : Bool :=
  match s.data with
  | [] => false
  | c :: _ => decide (c = '#')

/-- The pointer test used by `of` (line 200) and `toUpdateCoro` (line 172):
a string starting with `#` of length greater than 1. -/
def validPointer (s : String) : Bool :=
  isMarkerStr s && decide (1 < s.length)

/-- Association-list lookup of an own property, first match wins. -/
def lookupF {α : Type} : List (String × α) → String → Option α
  | [], _ => none
  | (k', v) :: rest, k => if k' = k then some v else lookupF rest k

/-- `{...fs, k: v}` / `obj[k] = v`: overwrite `k` in place if present
(keeping its position), else append it — JavaScript property-order
semantics. -/
def setField {α : Type} : List (String × α) → String → α → List (String × α)
  | [], k, v => [(k, v)]
  | (k', v') :: rest, k, v =>
      if k' = k then (k, v) :: rest else (k', v') :: setField rest k v

/-- The index-keyed own properties of an array, as `Object.assign` and
`Object.keys` see them: `[("0", e0), ("1", e1), ...]`. -/
def idxFields (es : List JVal) : List (String × JVal) :=
  es.enum.map (fun iv => (Nat.repr iv.1, iv.2))

/-- The index-keyed own properties of a string primitive (its characters). -/
def strFields (s : String) : List (String × JVal) :=
  s.data.enum.map (fun ic => (Nat.repr ic.1, JVal.str (String.mk [ic.2])))

/-- The own enumerable properties of a value, as an ordered list. -/
def ownFields (h : Heap) : JVal → List (String × JVal)
  | .ref a =>
      match h[a]? with
      | some (.objN fs) => fs
      | some (.arrN es) => idxFields es
      | none => []
  | .str s => strFields s
  | _ => []

/-- JavaScript property read `v[k]`, with `undefined` for a missing key. -/
def getProp (h : Heap) (v : JVal) (k : String) : JVal :=
  (lookupF (ownFields h v) k).getD JVal.undef

/-- Follow a key path through the heap; `none` when a key is absent. -/
def getPath (h : Heap) (v : JVal) : List String → Option JVal
  | [] => some v
  | k :: p =>
      match lookupF (ownFields h v) k with
      | some c => getPath h c p
      | none => none

/-- `typeof v === 'object'` (true for `null` and for object/array refs). -/
def isObjType : JVal → Bool
  | .null => true
  | .ref _ => true
  | _ => false

/-- `Array.isArray(v)`. -/
def isArrayB (h : Heap) : JVal → Bool
  | .ref a =>
      match h[a]? with
      | some (.arrN _) => true
      | _ => false
  | _ => false

/-- `Object.assign` target update: copy every field of `src` onto `fs`
in order, overwriting in place. -/
def assignFields (fs src : List (String × JVal)) : List (String × JVal) :=
  src.foldl (fun acc kv => setField acc kv.1 kv.2) fs

/-- Lines 75-85: `pipe(value, predicate)` — apply the function payload to
the value; a null/undefined value or a non-function payload is returned
unchanged. -/
def pipe (fenv : FEnv) (h : Heap) (value predicate : JVal) : Heap × JVal :=
  if value = JVal.null ∨ value = JVal.undef then (h, value)
  else
    match predicate with
    | .fn fid => fenv fid h value
    | _ => (h, value)

/-- Lines 87-92: `set(oldValue, newValue)` — replace, unless the payload is
null/undefined. -/
def set (h : Heap) (oldValue newValue : JVal) : Heap × JVal :=
  if newValue = JVal.null ∨ newValue = JVal.undef then (h, oldValue)
  else (h, newValue)

/-- Array contents of a value, when it is a reference to an array node. -/
def asArr (h : Heap) : JVal → Option (List JVal)
  | .ref a =>
      match h[a]? with
      | some (.arrN es) => some es
      | _ => none
  | _ => none

/-- Lines 94-102: `extend(oldArray, newArray)` — concatenate when both are
arrays and the payload is non-empty, else return the old value. -/
def extend (h : Heap) (oldArray newArray : JVal) : Heap × JVal :=
  match asArr h newArray, asArr h oldArray with
  | some ns, some os =>
      if ns.length ≠ 0 then (h ++ [Node.arrN (os ++ ns)], JVal.ref h.length)
      else (h, oldArray)
  | _, _ => (h, oldArray)

/-- Lines 104-114: `append(oldList, value)` — `oldList.concat(value)`
(an array argument is spread, per `Array.prototype.concat`); null/undefined
values and non-array old lists are no-ops. -/
def append (h : Heap) (oldList value : JVal) : Heap × JVal :=
  if value = JVal.undef ∨ value = JVal.null then (h, oldList)
  else
    match asArr h oldList with
    | none => (h, oldList)
    | some os =>
        match asArr h value with
        | some vs => (h ++ [Node.arrN (os ++ vs)], JVal.ref h.length)
        | none => (h ++ [Node.arrN (os ++ [value])], JVal.ref h.length)

/-- Lines 116-129: `merge(oldObject, newObject)` —
`Object.assign({}, oldObject, newObject)` unless the payload is
null/undefined, not of object type, or has no own keys. -/
def merge (h : Heap) (oldObject newObject : JVal) : Heap × JVal :=
  if newObject = JVal.null ∨ newObject = JVal.undef ∨ isObjType newObject = false then
    (h, oldObject)
  else if (ownFields h newObject).isEmpty then (h, oldObject)
  else
    (h ++ [Node.objN (assignFields (assignFields [] (ownFields h oldObject))
                                   (ownFields h newObject))],
     JVal.ref h.length)

/-- Array filter of lines 139-140: keep the element at index `i` unless
`key === i` (strict equality against the numeric index). -/
def filterIdx (es : List JVal) (key : JVal) : List JVal :=
  (es.enum.filter (fun iv => decide (key ≠ JVal.num (Int.ofNat iv.1)))).map Prod.snd

/-- Lines 132-147: `deleteOp(oldObject, key)` — remove the element at a
numeric index (arrays) or the strictly-equal string key (objects);
null/undefined keys and primitive old values are no-ops. -/
def deleteOp (h : Heap) (oldObject key : JVal) : Heap × JVal :=
  if key = JVal.null ∨ key = JVal.undef then (h, oldObject)
  else
    match oldObject with
    | .ref a =>
        match h[a]? with
        | some (.arrN es) => (h ++ [Node.arrN (filterIdx es key)], JVal.ref h.length)
        | some (.objN fs) =>
            (h ++ [Node.objN (fs.filter (fun kv => decide (JVal.str kv.1 ≠ key)))],
             JVal.ref h.length)
        | none => (h, oldObject)
    | _ => (h, oldObject)

/-- The six operation names of the registry (lines 149-156); a closed enum
standing for the string-keyed dispatch of `operationalMapper`. -/
inductive OpName : Type where
  | set : OpName
  | append : OpName
  | merge : OpName
  | extend : OpName
  | delete : OpName
  | pipe : OpName
deriving DecidableEq

/-- A pending-update ledger entry `{operation, value}` (the
`updatePayload` recorded by `operationFactory`, lines 212-218). -/
structure UpdateEntry : Type where
  operation : OpName
  value : JVal
deriving DecidableEq

/-- The pending-update ledger `toUpdate`: pointer id → entry. -/
abbrev Ledger := List (String × UpdateEntry)

/-- Lines 149-156: `operationalMapper` — name-to-function dispatch. -/
def operationalMapper (fenv : FEnv) : OpName → Heap → JVal → JVal → Heap × JVal
  | .set => set
  | .append => append
  | .merge => merge
  | .extend => extend
  | .delete => deleteOp
  | .pipe => pipe fenv

/-- Lines 161-181: the body of `toUpdateCoro` — record one update in the
ledger. The pointer `"#"` is normalized to the reserved `default` slot;
any other pointer starting with `#` (length > 1) is stored under its exact
string; anything else is silently ignored. Re-recording under the same
slot overwrites (object-spread semantics). -/
def recordUpdate (tu : Ledger) (pointer : String) (e : UpdateEntry) : Ledger :=
  if pointer = hashStr then setField tu defaultStr e
  else if validPointer pointer then setField tu pointer e
  else tu

/-- The builder's mutable state: the ledger and the current pointer
(lines 158-159). -/
structure Session : Type where
  toUpdate : Ledger
  targetPointer : String

/-- A fresh builder session: empty ledger, current pointer `"#"`. -/
def initialSession : Session := ⟨[], hashStr⟩

/-- Lines 196-208: `of(target)` — falsy targets are ignored; a string
starting with `#` of length > 1 becomes the current pointer. -/
def ofPtr (s : Session) (target : String) : Session :=
  if target.data = [] then s
  else if validPointer target then { s with targetPointer := target }
  else s

/-- Lines 209-222: `operationFactory(name)(value)` — always records
(the guard `value !== undefined || value !== null` is a tautology)
under the current pointer. -/
def opCall (s : Session) (opn : OpName) (v : JVal) : Session :=
  { s with toUpdate := recordUpdate s.toUpdate s.targetPointer ⟨opn, v⟩ }

mutual

/-- A selector tree node: a pointer-marker string or a nested mapping
(ordered key/sub-selector list). Non-marker string selector values
(strings not starting with `#`) fall outside this grammar; in JavaScript
they irregularly loop over the string's character keys. -/
inductive Sel : Type where
  | marker : String → Sel
  | node : SelFields → Sel

/-- The ordered fields of a selector mapping. -/
inductive SelFields : Type where
  | nil : SelFields
  | cons : String → Sel → SelFields → SelFields

end

end JsImmutable

namespace JsImmutable

/-- The keys of a selector mapping (`Object.keys(selectorObject)`). -/
def sfKeys : SelFields → List String
  | .nil => []
  | .cons k _ rest => k :: sfKeys rest

/-- Look up the sub-selector at a key. -/
def sfLookup : SelFields → String → Option Sel
  | .nil, _ => none
  | .cons k' sub rest, k => if k' = k then some sub else sfLookup rest k

/-- Concatenate two selector field lists. -/
def sfAppend : SelFields → SelFields → SelFields
  | .nil, fs => fs
  | .cons k sub rest, fs => .cons k sub (sfAppend rest fs)

/-- `clonedObject[key] = v` (line 259): an in-place property write on the
heap node at address `a`. The cloner only ever writes to the plain-object
clones it allocated itself, so only the object case carries behaviour. -/
def setPropAt (h : Heap) (a : Nat) (k : String) (v : JVal) : Heap :=
  match h[a]? with
  | some (.objN fs) => h.set a (Node.objN (setField fs k v))
  | some (.arrN es) => h.set a (Node.arrN es)
  | none => h

/-- Lines 225-247: the leaf case of `selectTransform` — the selector value
is a pointer-marker string. Throws when the ledger is empty; resolves `"#"`
through the `default` slot and any other marker by exact string key;
an unmatched marker returns the node unchanged. -/
def leafStep (fenv : FEnv) (tu : Ledger) (h : Heap) (node : JVal) (s : String) :
    Except String (Heap × JVal) :=
  if tu.isEmpty then Except.error errNoOperation
  else if s = hashStr then
    match lookupF tu defaultStr with
    | some u => Except.ok (operationalMapper fenv u.operation h node u.value)
    | none => Except.ok (h, node)
  else
    match lookupF tu s with
    | some u => Except.ok (operationalMapper fenv u.operation h node u.value)
    | none => Except.ok (h, node)

mutual

/-- Lines 224-262: `selectTransform(originalObject, selectorObject)`.
A marker string dispatches to the leaf case; a mapping is the branch case:
shallow-clone the node with `Object.assign({}, node)` (always a fresh
plain object) and run the key loop against the clone. A non-`#` string
selector is outside the modelled grammar (see `Sel`) and returns the node. -/
def selectTransform (fenv : FEnv) (tu : Ledger) (h : Heap) (node : JVal) :
    Sel → Except String (Heap × JVal)
  | .marker s =>
      if isMarkerStr s then leafStep fenv tu h node s
      else Except.ok (h, node)
  | .node fs =>
      branchLoop fenv tu (h ++ [Node.objN (ownFields h node)]) h.length node fs

/-- Lines 251-261: the `for (const key of Object.keys(selectorObject))`
loop of the branch case, with the clone at address `ca`. A null/undefined
child aborts the whole branch, discarding the clone and returning the
original node; otherwise the recursive result is written into the clone. -/
def branchLoop (fenv : FEnv) (tu : Ledger) (h : Heap) (ca : Nat) (orig : JVal) :
    SelFields → Except String (Heap × JVal)
  | .nil => Except.ok (h, JVal.ref ca)
  | .cons k sub rest =>
      let keyed := getProp h (JVal.ref ca) k
      if keyed = JVal.undef ∨ keyed = JVal.null then Except.ok (h, orig)
      else
        match selectTransform fenv tu h keyed sub with
        | Except.error e => Except.error e
        | Except.ok (h2, r) => branchLoop fenv tu (setPropAt h2 ca k r) ca orig rest

end

/-- Lines 264-266: `apply()` — run the cloner once over the bound object
and selector with the session's ledger. -/
def applySession (fenv : FEnv) (h : Heap) (orig : JVal) (sel : Sel) (s : Session) :
    Except String (Heap × JVal) :=
  selectTransform fenv s.toUpdate h orig sel

/-! ### Observers used by the specification statements -/

/-- A value's reference (if any) points below `n`. -/
def valBelowB (n : Nat) : JVal → Bool
  | .ref a => decide (a < n)
  | _ => true

/-- Every value stored in the node points below `n`. -/
def nodeBelowB (n : Nat) : Node → Bool
  | .objN fs => fs.all fun kv => valBelowB n kv.2
  | .arrN es => es.all fun v => valBelowB n v

/-- Decidable check that the heap segment below `n` is closed below `n`. -/
def heapClosedB (n : Nat) (h : Heap) : Bool :=
  (h.take n).all (nodeBelowB n)

/-- The heap segment below `n` is closed below `n` (propositional form). -/
def HeapClosed (n : Nat) (h : Heap) : Prop :=
  ∀ a nd, a < n → h[a]? = some nd → nodeBelowB n nd = true

/-- Heap evolution that keeps every address below `n` intact and never
shrinks the heap. -/
def PresBelow (n : Nat) (h h' : Heap) : Prop :=
  h.length ≤ h'.length ∧ ∀ a, a < n → h'[a]? = h[a]?

/-- A pure function environment: applying a function may allocate, but
never mutates or drops an existing heap cell. This is the meaning of a
"pure" payload handed to `pipe` (a JavaScript function cannot reach the
cloner's internals; it may only read what it was given and allocate). -/
def PureFenv (fenv : FEnv) : Prop :=
  ∀ fid h v, PresBelow h.length h (fenv fid h v).1

/-- A path that no selector path addresses: it leaves the selector shape
at a key the selector does not mention, without passing through a marker
and without stopping at a selector node. -/
def untouchedB : Sel → List String → Bool
  | _, [] => false
  | .marker _, _ :: _ => false
  | .node fs, k :: p =>
      match sfLookup fs k with
      | none => true
      | some sub => untouchedB sub p

mutual

/-- Well-formed selector: markers start with `#`, mapping keys are
duplicate-free (as `Object.keys` guarantees in JavaScript). -/
def selWFb : Sel → Bool
  | .marker s => isMarkerStr s
  | .node fs => decide (sfKeys fs).Nodup && sfWFb fs

/-- Well-formedness of every sub-selector of a field list. -/
def sfWFb : SelFields → Bool
  | .nil => true
  | .cons _ sub rest => selWFb sub && sfWFb rest

end

/-! ### List and heap access lemmas -/

theorem gq_append_lt {α : Type} :
    ∀ (l l2 : List α) (a : Nat), a < l.length → (l ++ l2)[a]? = l[a]? := by
  intro l
  induction l with
  | nil => intro l2 a ha; exact absurd ha (by simp)
  | cons x t ih =>
      intro l2 a ha
      cases a with
      | zero => simp
      | succ b =>
          simp only [List.cons_append, List.getElem?_cons_succ]
          exact ih l2 b (by simp at ha; omega)

theorem gq_append_len {α : Type} :
    ∀ (l : List α) (x : α), (l ++ [x])[l.length]? = some x := by
  intro l x
  induction l with
  | nil => rfl
  | cons y t ih => simp [ih]

theorem gq_set_ne {α : Type} :
    ∀ (l : List α) (a b : Nat) (x : α), a ≠ b → (l.set a x)[b]? = l[b]? := by
  intro l
  induction l with
  | nil => intros; rfl
  | cons y t ih =>
      intro a b x hab
      cases a with
      | zero =>
          cases b with
          | zero => exact absurd rfl hab
          | succ b' => simp [List.set]
      | succ a' =>
          cases b with
          | zero => simp [List.set]
          | succ b' =>
              simp only [List.set, List.getElem?_cons_succ]
              exact ih a' b' x (fun e => hab (by rw [e]))

theorem gq_set_self {α : Type} :
    ∀ (l : List α) (a : Nat) (x : α), a < l.length → (l.set a x)[a]? = some x := by
  intro l
  induction l with
  | nil => intro a x ha; exact absurd ha (by simp)
  | cons y t ih =>
      intro a x ha
      cases a with
      | zero => simp [List.set]
      | succ a' =>
          simp only [List.set, List.getElem?_cons_succ]
          exact ih a' x (by simp at ha; omega)

theorem gq_take {α : Type} :
    ∀ (l : List α) (n a : Nat), a < n → (l.take n)[a]? = l[a]? := by
  intro l
  induction l with
  | nil => intros; simp
  | cons x t ih =>
      intro n a han
      cases n with
      | zero => omega
      | succ m =>
          cases a with
          | zero => simp
          | succ b =>
              simp only [List.take_succ_cons, List.getElem?_cons_succ]
              exact ih m b (by omega)

theorem mem_of_gq {α : Type} :
    ∀ (l : List α) (a : Nat) (x : α), l[a]? = some x → x ∈ l := by
  intro l
  induction l with
  | nil => intro a x hx; simp at hx
  | cons y t ih =>
      intro a x hx
      cases a with
      | zero =>
          simp only [List.getElem?_cons_zero, Option.some.injEq] at hx
          exact hx ▸ List.mem_cons_self y t
      | succ b =>
          simp only [List.getElem?_cons_succ] at hx
          exact List.mem_cons_of_mem y (ih b x hx)

/-! ### Field list lemmas -/

theorem lookupF_setField_self {α : Type} :
    ∀ (fs : List (String × α)) (k : String) (v : α),
      lookupF (setField fs k v) k = some v := by
  intro fs k v
  induction fs with
  | nil => simp [setField, lookupF]
  | cons kv rest ih =>
      by_cases hk : kv.1 = k
      · simp [setField, hk, lookupF]
      · simp only [setField]
        rw [if_neg (by exact hk)]
        simp only [lookupF]
        rw [if_neg (by exact hk)]
        exact ih

theorem lookupF_setField_ne {α : Type} :
    ∀ (fs : List (String × α)) (k : String) (v : α) (k' : String), k' ≠ k →
      lookupF (setField fs k v) k' = lookupF fs k' := by
  intro fs k v k' hne
  induction fs with
  | nil =>
      simp only [setField, lookupF]
      rw [if_neg (fun e => hne e.symm)]
  | cons kv rest ih =>
      by_cases hk : kv.1 = k
      · simp only [setField]
        rw [if_pos hk]
        simp only [lookupF]
        rw [if_neg (fun e => hne e.symm), if_neg (by rw [hk]; exact fun e => hne e.symm)]
      · simp only [setField]
        rw [if_neg hk]
        simp only [lookupF]
        by_cases hk' : kv.1 = k'
        · rw [if_pos hk', if_pos hk']
        · rw [if_neg hk', if_neg hk']
          exact ih

theorem setField_setField {α : Type} :
    ∀ (fs : List (String × α)) (k : String) (a b : α),
      setField (setField fs k a) k b = setField fs k b := by
  intro fs k a b
  induction fs with
  | nil => simp [setField]
  | cons kv rest ih =>
      by_cases hk : kv.1 = k
      · simp [setField, hk]
      · simp only [setField]
        rw [if_neg hk]
        simp only [setField]
        rw [if_neg hk, if_neg hk]
        rw [ih]

theorem lookupF_mem {α : Type} :
    ∀ (fs : List (String × α)) (k : String) (v : α),
      lookupF fs k = some v → (k, v) ∈ fs := by
  intro fs
  induction fs with
  | nil => intro k v hv; simp [lookupF] at hv
  | cons kv rest ih =>
      intro k v hv
      simp only [lookupF] at hv
      by_cases hk : kv.1 = k
      · rw [if_pos hk] at hv
        simp only [Option.some.injEq] at hv
        have : kv = (k, v) := by
          cases kv
          simp_all
        exact this ▸ List.mem_cons_self kv rest
      · rw [if_neg hk] at hv
        exact List.mem_cons_of_mem kv (ih k v hv)

theorem snd_mem_enumFrom {α : Type} :
    ∀ (l : List α) (n : Nat) (x : Nat × α), x ∈ l.enumFrom n → x.2 ∈ l := by
  intro l
  induction l with
  | nil => intro n x hx; simp [List.enumFrom] at hx
  | cons y t ih =>
      intro n x hx
      simp only [List.enumFrom, List.mem_cons] at hx
      rcases hx with hx | hx
      · rw [hx]; exact List.mem_cons_self y t
      · exact List.mem_cons_of_mem y (ih (n + 1) x hx)

theorem snd_mem_enum {α : Type} (l : List α) (x : Nat × α) (hx : x ∈ l.enum) :
    x.2 ∈ l :=
  snd_mem_enumFrom l 0 x hx

/-! ### Validity, closure and stability -/

theorem heapClosedB_closed {n : Nat} {h : Heap} (hc : heapClosedB n h = true) :
    HeapClosed n h := by
  intro a nd ha hget
  have hmem : nd ∈ h.take n := by
    apply mem_of_gq (h.take n) a
    rw [gq_take h n a ha]
    exact hget
  exact List.all_eq_true.mp hc nd hmem

theorem HeapClosed_transfer {n : Nat} {h0 h : Heap} (hc : HeapClosed n h0)
    (hag : ∀ a, a < n → h[a]? = h0[a]?) : HeapClosed n h := by
  intro a nd ha hget
  exact hc a nd ha (by rw [← hag a ha]; exact hget)

theorem valBelowB_mono {m n : Nat} {v : JVal} (hmn : m ≤ n)
    (hv : valBelowB m v = true) : valBelowB n v = true := by
  cases v <;> simp [valBelowB] at hv ⊢ <;> omega

theorem ownFields_below {n : Nat} {h : Heap} {v : JVal} {k : String} {c : JVal}
    (hc : HeapClosed n h) (hv : valBelowB n v = true)
    (hlk : lookupF (ownFields h v) k = some c) : valBelowB n c = true := by
  have hmem := lookupF_mem _ _ _ hlk
  cases v with
  | ref a =>
      have ha : a < n := by simpa [valBelowB] using hv
      simp only [ownFields] at hmem
      cases hget : h[a]? with
      | none => rw [hget] at hmem; simp at hmem
      | some nd =>
          rw [hget] at hmem
          have hnd := hc a nd ha hget
          cases nd with
          | objN fs =>
              simp only at hmem
              have := List.all_eq_true.mp hnd (k, c) hmem
              exact this
          | arrN es =>
              simp only [idxFields] at hmem
              rcases List.mem_map.mp hmem with ⟨iv, hiv, heq⟩
              have hc2 : c = iv.2 := by
                have := congrArg Prod.snd heq
                simp at this
                exact this.symm
              have : iv.2 ∈ es := snd_mem_enum es iv hiv
              rw [hc2]
              exact List.all_eq_true.mp hnd iv.2 this
  | str s =>
      simp only [ownFields, strFields] at hmem
      rcases List.mem_map.mp hmem with ⟨ic, _, heq⟩
      have hc2 : c = JVal.str (String.mk [ic.2]) := by
        have := congrArg Prod.snd heq
        simp at this
        exact this.symm
      rw [hc2]
      rfl
  | null => simp [ownFields] at hmem
  | undef => simp [ownFields] at hmem
  | num m => simp [ownFields] at hmem
  | bool b => simp [ownFields] at hmem
  | fn f => simp [ownFields] at hmem

theorem ownFields_agree {n : Nat} {h h2 : Heap} {v : JVal}
    (hv : valBelowB n v = true) (hag : ∀ a, a < n → h2[a]? = h[a]?) :
    ownFields h2 v = ownFields h v := by
  cases v with
  | ref a =>
      have ha : a < n := by simpa [valBelowB] using hv
      simp only [ownFields]
      rw [hag a ha]
  | null => rfl
  | undef => rfl
  | str s => rfl
  | num m => rfl
  | bool b => rfl
  | fn f => rfl

/-- Stability of path evaluation: below-`n` data is read identically in any
heap agreeing below `n`. -/
theorem getPath_stable :
    ∀ (p : List String) (h h2 : Heap) (v : JVal) (n : Nat),
      HeapClosed n h → valBelowB n v = true →
      (∀ a, a < n → h2[a]? = h[a]?) →
      getPath h2 v p = getPath h v p := by
  intro p
  induction p with
  | nil => intros; rfl
  | cons k p' ih =>
      intro h h2 v n hc hv hag
      rw [getPath, getPath, ownFields_agree hv hag]
      cases hlk : lookupF (ownFields h v) k with
      | none => rfl
      | some c => exact ih h h2 c n hc (ownFields_below hc hv hlk) hag

/-! ### Heap preservation lemmas -/

theorem presBelow_refl (n : Nat) (h : Heap) : PresBelow n h h :=
  ⟨le_refl _, fun _ _ => rfl⟩

theorem presBelow_trans {n : Nat} {h h2 h3 : Heap}
    (p1 : PresBelow n h h2) (p2 : PresBelow n h2 h3) : PresBelow n h h3 :=
  ⟨le_trans p1.1 p2.1, fun a ha => (p2.2 a ha).trans (p1.2 a ha)⟩

theorem presBelow_mono {m n : Nat} {h h2 : Heap} (hmn : m ≤ n)
    (p : PresBelow n h h2) : PresBelow m h h2 :=
  ⟨p.1, fun a ha => p.2 a (lt_of_lt_of_le ha hmn)⟩

theorem presBelow_append (n : Nat) (h l : Heap) (hn : n ≤ h.length) :
    PresBelow n h (h ++ l) :=
  ⟨by simp, fun a ha => gq_append_lt h l a (lt_of_lt_of_le ha hn)⟩

theorem presBelow_set (n : Nat) (h : Heap) (ca : Nat) (nd : Node) (hca : n ≤ ca) :
    PresBelow n h (h.set ca nd) :=
  ⟨by simp, fun a ha => gq_set_ne h ca a nd (by omega)⟩

/-- Every registry operation preserves the existing heap: it returns the
heap unchanged or extends it by a fresh allocation (given a pure function
environment for `pipe`). -/
theorem opPres {fenv : FEnv} (hp : PureFenv fenv) (op : OpName) (h : Heap)
    (o v : JVal) : PresBelow h.length h (operationalMapper fenv op h o v).1 := by
  cases op <;>
    simp only [operationalMapper, set, pipe, append, merge, extend, deleteOp] <;>
    (repeat' split) <;>
    first
      | exact presBelow_refl _ _
      | exact presBelow_append _ _ _ (le_refl _)
      | exact hp _ h o

/-- The leaf case preserves the existing heap. -/
theorem leafPres {fenv : FEnv} {tu : Ledger} {h : Heap} {node : JVal}
    {s : String} {h' : Heap} {r : JVal} (hp : PureFenv fenv)
    (hrun : leafStep fenv tu h node s = Except.ok (h', r)) :
    PresBelow h.length h h' := by
  unfold leafStep at hrun
  split at hrun
  · exact absurd hrun (by simp)
  · split at hrun
    · cases hlk : lookupF tu defaultStr with
      | some u =>
          rw [hlk] at hrun
          simp only [Except.ok.injEq] at hrun
          have := opPres hp u.operation h node u.value
          rw [hrun] at this
          exact this
      | none =>
          rw [hlk] at hrun
          simp only [Except.ok.injEq, Prod.mk.injEq] at hrun
          rw [← hrun.1]
          exact presBelow_refl _ _
    · cases hlk : lookupF tu s with
      | some u =>
          rw [hlk] at hrun
          simp only [Except.ok.injEq] at hrun
          have := opPres hp u.operation h node u.value
          rw [hrun] at this
          exact this
      | none =>
          rw [hlk] at hrun
          simp only [Except.ok.injEq, Prod.mk.injEq] at hrun
          rw [← hrun.1]
          exact presBelow_refl _ _

theorem setPropAt_length (h : Heap) (a : Nat) (k : String) (v : JVal) :
    (setPropAt h a k v).length = h.length := by
  unfold setPropAt
  split <;> simp

theorem setPropAt_get_ne (h : Heap) (a : Nat) (k : String) (v : JVal) (b : Nat)
    (hne : a ≠ b) : (setPropAt h a k v)[b]? = h[b]? := by
  unfold setPropAt
  split
  · exact gq_set_ne _ _ _ _ hne
  · exact gq_set_ne _ _ _ _ hne
  · rfl

theorem presBelow_setPropAt (n : Nat) (h : Heap) (ca : Nat) (k : String)
    (v : JVal) (hca : n ≤ ca) : PresBelow n h (setPropAt h ca k v) :=
  ⟨by rw [setPropAt_length], fun a ha => setPropAt_get_ne h ca k v a (by omega)⟩

theorem isEmpty_eq_nil {α : Type} {l : List α} (he : l.isEmpty = true) : l = [] := by
  cases l with
  | nil => rfl
  | cons a t => simp [List.isEmpty] at he

/-- The only error the engine can produce is the empty-ledger error of the
leaf case. -/
theorem leafErr {fenv : FEnv} {tu : Ledger} {h : Heap} {node : JVal}
    {s : String} {e : String}
    (hrun : leafStep fenv tu h node s = Except.error e) :
    tu = [] ∧ e = errNoOperation := by
  unfold leafStep at hrun
  split at hrun
  · next hemp =>
      refine ⟨isEmpty_eq_nil hemp, ?_⟩
      injection hrun with h1
      exact h1.symm
  · split at hrun <;> split at hrun <;> simp at hrun

mutual

/-- `selectTransform` never mutates or drops a pre-existing heap cell
(given a pure function environment): it only allocates and writes into
its own fresh clones. -/
theorem STpres (fenv : FEnv) (tu : Ledger) (hp : PureFenv fenv) (sel : Sel) :
    ∀ {h : Heap} {node : JVal} {h' : Heap} {r : JVal},
      selectTransform fenv tu h node sel = Except.ok (h', r) →
      PresBelow h.length h h' := by
  cases sel with
  | marker s =>
      intro h node h' r hrun
      simp only [selectTransform] at hrun
      split at hrun
      · exact leafPres hp hrun
      · simp only [Except.ok.injEq, Prod.mk.injEq] at hrun
        rw [← hrun.1]
        exact presBelow_refl _ _
  | node fs =>
      intro h node h' r hrun
      simp only [selectTransform] at hrun
      have hbl := BLpres fenv tu hp fs (by simp) hrun
      exact presBelow_trans (presBelow_append h.length h _ (le_refl _)) hbl

/-- The branch loop preserves every heap cell below the clone address. -/
theorem BLpres (fenv : FEnv) (tu : Ledger) (hp : PureFenv fenv) (fs : SelFields) :
    ∀ {h : Heap} {ca : Nat} {orig : JVal} {h' : Heap} {r : JVal},
      ca ≤ h.length →
      branchLoop fenv tu h ca orig fs = Except.ok (h', r) →
      PresBelow ca h h' := by
  cases fs with
  | nil =>
      intro h ca orig h' r _ hrun
      simp only [branchLoop, Except.ok.injEq, Prod.mk.injEq] at hrun
      rw [← hrun.1]
      exact presBelow_refl _ _
  | cons k sub rest =>
      intro h ca orig h' r hca hrun
      simp only [branchLoop] at hrun
      split at hrun
      · simp only [Except.ok.injEq, Prod.mk.injEq] at hrun
        rw [← hrun.1]
        exact presBelow_refl _ _
      · cases hst : selectTransform fenv tu h (getProp h (JVal.ref ca) k) sub with
        | error e => rw [hst] at hrun; exact absurd hrun (by simp)
        | ok pr =>
            rcases pr with ⟨h2, rr⟩
            rw [hst] at hrun
            have hst' := STpres fenv tu hp sub hst
            have hca2 : ca ≤ (setPropAt h2 ca k rr).length := by
              rw [setPropAt_length]
              have := hst'.1
              omega
            have hbl := BLpres fenv tu hp rest hca2 hrun
            refine presBelow_trans (presBelow_mono hca hst') ?_
            exact presBelow_trans (presBelow_setPropAt ca h2 ca k rr (le_refl _)) hbl

end

mutual

/-- Any error of `selectTransform` is the empty-ledger error: it arises
exactly from a reached leaf while the ledger has zero entries. -/
theorem STerr (fenv : FEnv) (tu : Ledger) (sel : Sel) :
    ∀ {h : Heap} {node : JVal} {e : String},
      selectTransform fenv tu h node sel = Except.error e →
      tu = [] ∧ e = errNoOperation := by
  cases sel with
  | marker s =>
      intro h node e hrun
      simp only [selectTransform] at hrun
      split at hrun
      · exact leafErr hrun
      · exact absurd hrun (by simp)
  | node fs =>
      intro h node e hrun
      simp only [selectTransform] at hrun
      exact BLerr fenv tu fs hrun

/-- Any error of the branch loop is the empty-ledger error. -/
theorem BLerr (fenv : FEnv) (tu : Ledger) (fs : SelFields) :
    ∀ {h : Heap} {ca : Nat} {orig : JVal} {e : String},
      branchLoop fenv tu h ca orig fs = Except.error e →
      tu = [] ∧ e = errNoOperation := by
  cases fs with
  | nil =>
      intro h ca orig e hrun
      simp only [branchLoop] at hrun
      exact absurd hrun (by simp)
  | cons k sub rest =>
      intro h ca orig e hrun
      simp only [branchLoop] at hrun
      split at hrun
      · exact absurd hrun (by simp)
      · cases hst : selectTransform fenv tu h (getProp h (JVal.ref ca) k) sub with
        | error e2 =>
            rw [hst] at hrun
            injection hrun with h1
            exact h1 ▸ STerr fenv tu sub hst
        | ok pr =>
            rcases pr with ⟨h2, rr⟩
            rw [hst] at hrun
            exact BLerr fenv tu rest hrun

end

/-! ### Selector lookup lemmas -/

theorem sfLookup_none_not_mem (fs : SelFields) (k : String) :
    sfLookup fs k = none → k ∉ sfKeys fs := by
  cases fs with
  | nil => intro _ hk; simp [sfKeys] at hk
  | cons k' sub rest =>
      intro hlk hk
      simp only [sfLookup] at hlk
      by_cases he : k' = k
      · rw [if_pos he] at hlk; exact absurd hlk (by simp)
      · rw [if_neg he] at hlk
        simp only [sfKeys, List.mem_cons] at hk
        rcases hk with hk | hk
        · exact he hk.symm
        · exact sfLookup_none_not_mem rest k hlk hk

/-! ### The structural sharing induction -/

mutual

/-- Core sharing lemma: in any heap `h2` agreeing with the result heap on
the original-data segment (below `n`) and on the freshly allocated range,
the result reads identically to the original at every untouched path. -/
theorem STshare (fenv : FEnv) (tu : Ledger) (hp : PureFenv fenv) (sel : Sel) :
    ∀ {n : Nat} {h : Heap} {node : JVal} {h' : Heap} {r : JVal} (h2 : Heap),
      selWFb sel = true →
      HeapClosed n h → valBelowB n node = true → n ≤ h.length →
      selectTransform fenv tu h node sel = Except.ok (h', r) →
      (∀ a, a < n ∨ (h.length ≤ a ∧ a < h'.length) → h2[a]? = h'[a]?) →
      ∀ p, untouchedB sel p = true → getPath h2 r p = getPath h node p := by
  cases sel with
  | marker s =>
      intro n h node h' r h2 _ _ _ _ _ _ p hup
      exfalso
      cases p with
      | nil => simp [untouchedB] at hup
      | cons k p' => simp [untouchedB] at hup
  | node fs =>
      intro n h node h' r h2 hwf hc hv hn hrun hmask p hup
      simp only [selectTransform] at hrun
      have hwf2 := hwf
      simp only [selWFb, Bool.and_eq_true, decide_eq_true_eq] at hwf2
      have hbl := BLmain fenv tu hp fs (ownFields h node) hwf2.1 hwf2.2
        hc hv hn (by simp)
        (fun a ha => gq_append_lt _ _ _ ha)
        (gq_append_len h (Node.objN (ownFields h node)))
        (fun _ _ => rfl) hrun
      obtain ⟨⟨hlen1, hpres⟩, hdisj⟩ := hbl
      cases p with
      | nil => simp [untouchedB] at hup
      | cons k p' =>
          rcases hdisj with hrn | ⟨hrca, fsR, hgetR, hunproc, hshare⟩
          · rw [hrn]
            apply getPath_stable _ h h2 node n hc hv
            intro a ha
            have e1 : h2[a]? = h'[a]? := hmask a (Or.inl ha)
            have e2 : h'[a]? = (h ++ [Node.objN (ownFields h node)])[a]? := by
              apply hpres a
              · simp
                omega
              · omega
            have e3 : (h ++ [Node.objN (ownFields h node)])[a]? = h[a]? :=
              gq_append_lt _ _ _ (lt_of_lt_of_le ha hn)
            rw [e1, e2, e3]
          · rw [hrca]
            cases hlk : sfLookup fs k with
            | some sub =>
                have hup' : untouchedB sub p' = true := by
                  simpa [untouchedB, hlk] using hup
                exact hshare h2 hmask k sub p' hlk hup'
            | none =>
                have hknotmem : k ∉ sfKeys fs := sfLookup_none_not_mem fs k hlk
                have hca_lt : h.length < h'.length := by
                  simp at hlen1
                  omega
                have h2ca : h2[h.length]? = h'[h.length]? :=
                  hmask _ (Or.inr ⟨le_refl _, hca_lt⟩)
                have hof2 : ownFields h2 (JVal.ref h.length) = fsR := by
                  simp only [ownFields]
                  rw [h2ca, hgetR]
                simp only [getPath, hof2, hunproc k hknotmem]
                cases hlk2 : lookupF (ownFields h node) k with
                | none => rfl
                | some c =>
                    have hcB := ownFields_below hc hv hlk2
                    apply getPath_stable p' h h2 c n hc hcB
                    intro a ha
                    have e1 : h2[a]? = h'[a]? := hmask a (Or.inl ha)
                    have e2 : h'[a]? = (h ++ [Node.objN (ownFields h node)])[a]? := by
                      apply hpres a
                      · simp
                        omega
                      · omega
                    have e3 : (h ++ [Node.objN (ownFields h node)])[a]? = h[a]? :=
                      gq_append_lt _ _ _ (lt_of_lt_of_le ha hn)
                    rw [e1, e2, e3]

/-- Branch-loop invariant carrying everything the sharing lemma needs:
the loop only writes at the clone address, the clone keeps the original
field references at unprocessed keys, and each selected key's result reads
identically to the original child at untouched sub-paths. -/
theorem BLmain (fenv : FEnv) (tu : Ledger) (hp : PureFenv fenv) (fs : SelFields) :
    ∀ {n : Nat} {h0 h : Heap} {node : JVal} {h' : Heap} {r : JVal}
      (fsC : List (String × JVal)),
      (sfKeys fs).Nodup → sfWFb fs = true →
      HeapClosed n h0 → valBelowB n node = true → n ≤ h0.length →
      h0.length < h.length →
      (∀ a, a < h0.length → h[a]? = h0[a]?) →
      h[h0.length]? = some (Node.objN fsC) →
      (∀ k, k ∈ sfKeys fs → lookupF fsC k = lookupF (ownFields h0 node) k) →
      branchLoop fenv tu h h0.length node fs = Except.ok (h', r) →
      (h.length ≤ h'.length ∧
        (∀ a, a < h.length → a ≠ h0.length → h'[a]? = h[a]?)) ∧
      (r = node ∨
        (r = JVal.ref h0.length ∧ ∃ fsR,
          h'[h0.length]? = some (Node.objN fsR) ∧
          (∀ k, k ∉ sfKeys fs → lookupF fsR k = lookupF fsC k) ∧
          (∀ (h2 : Heap),
            (∀ a, a < n ∨ (h0.length ≤ a ∧ a < h'.length) → h2[a]? = h'[a]?) →
            ∀ k sub p, sfLookup fs k = some sub → untouchedB sub p = true →
              getPath h2 (JVal.ref h0.length) (k :: p) =
                getPath h0 node (k :: p)))) := by
  cases fs with
  | nil =>
      intro n h0 h node h' r fsC _ _ _ _ _ _ _ hca _ hrun
      simp only [branchLoop, Except.ok.injEq, Prod.mk.injEq] at hrun
      refine ⟨⟨by rw [hrun.1], fun a _ _ => by rw [hrun.1]⟩,
        Or.inr ⟨hrun.2.symm, fsC, ?_, fun _ _ => rfl, ?_⟩⟩
      · rw [← hrun.1]
        exact hca
      · intro h2 _ k sub p hlk
        simp [sfLookup] at hlk
  | cons k0 s0 rest =>
      intro n h0 h node h' r fsC hnd hwf hc hv hn hlen hag hca hagree hrun
      have hofh : ownFields h (JVal.ref h0.length) = fsC := by
        simp only [ownFields]
        rw [hca]
      have hndc := List.nodup_cons.mp (by simpa [sfKeys] using hnd)
      have hwfc : selWFb s0 = true ∧ sfWFb rest = true := by
        simpa [sfWFb, Bool.and_eq_true] using hwf
      simp only [branchLoop] at hrun
      split at hrun
      · simp only [Except.ok.injEq, Prod.mk.injEq] at hrun
        exact ⟨⟨by rw [hrun.1], fun a _ _ => by rw [hrun.1]⟩, Or.inl hrun.2.symm⟩
      · next hnab =>
        cases hst : selectTransform fenv tu h (getProp h (JVal.ref h0.length) k0) s0 with
        | error e => rw [hst] at hrun; exact absurd hrun (by simp)
        | ok pr =>
            rcases pr with ⟨hmid, rk⟩
            rw [hst] at hrun
            have hl0 : lookupF fsC k0 = lookupF (ownFields h0 node) k0 :=
              hagree k0 (by simp [sfKeys])
            have hkeq : getProp h (JVal.ref h0.length) k0 =
                (lookupF (ownFields h0 node) k0).getD JVal.undef := by
              unfold getProp
              rw [hofh, hl0]
            cases hlk0 : lookupF (ownFields h0 node) k0 with
            | none =>
                exfalso
                apply hnab
                left
                rw [hkeq, hlk0]
                rfl
            | some child =>
                have hkeyedeq : getProp h (JVal.ref h0.length) k0 = child := by
                  rw [hkeq, hlk0]
                  rfl
                have hchildB : valBelowB n child = true := ownFields_below hc hv hlk0
                have hstpres := STpres fenv tu hp s0 hst
                have hmidca : hmid[h0.length]? = some (Node.objN fsC) := by
                  rw [hstpres.2 _ hlen]
                  exact hca
                have hcalt : h0.length < hmid.length := lt_of_lt_of_le hlen hstpres.1
                have hnextca :
                    (setPropAt hmid h0.length k0 rk)[h0.length]? =
                      some (Node.objN (setField fsC k0 rk)) := by
                  unfold setPropAt
                  rw [hmidca]
                  exact gq_set_self _ _ _ hcalt
                have hIH := BLmain fenv tu hp rest (setField fsC k0 rk)
                  hndc.2 hwfc.2 hc hv hn
                  (by rw [setPropAt_length]; exact hcalt)
                  (fun a ha => by
                    rw [setPropAt_get_ne _ _ _ _ a (by omega),
                        hstpres.2 a (lt_trans ha hlen)]
                    exact hag a ha)
                  hnextca
                  (fun k hk => by
                    have hkne : k ≠ k0 := fun he => hndc.1 (he ▸ hk)
                    rw [lookupF_setField_ne _ _ _ _ hkne]
                    exact hagree k (by simp [sfKeys, hk]))
                  hrun
                obtain ⟨⟨hlen2, hpres2⟩, hdisj2⟩ := hIH
                rw [setPropAt_length] at hlen2
                constructor
                · refine ⟨le_trans hstpres.1 hlen2, ?_⟩
                  intro a ha hane
                  have e1 : h'[a]? = (setPropAt hmid h0.length k0 rk)[a]? := by
                    apply hpres2 a _ hane
                    rw [setPropAt_length]
                    exact lt_of_lt_of_le ha hstpres.1
                  have e2 : (setPropAt hmid h0.length k0 rk)[a]? = hmid[a]? :=
                    setPropAt_get_ne _ _ _ _ a (fun he => hane he.symm)
                  rw [e1, e2, hstpres.2 a ha]
                · rcases hdisj2 with hrn | ⟨hrca, fsR, hgetR2, hunproc2, hshare2⟩
                  · exact Or.inl hrn
                  · refine Or.inr ⟨hrca, fsR, hgetR2, ?_, ?_⟩
                    · intro k hk
                      simp only [sfKeys, List.mem_cons, not_or] at hk
                      rw [hunproc2 k hk.2]
                      exact lookupF_setField_ne _ _ _ _ hk.1
                    · intro h2 hmask2 k sub p hlk hup
                      simp only [sfLookup] at hlk
                      by_cases hkk : k0 = k
                      · -- the key processed at this step
                        rw [if_pos hkk] at hlk
                        have hsub : sub = s0 := by
                          injection hlk with hlk2
                          exact hlk2.symm
                        rw [hsub] at hup
                        subst hkk
                        have hca_lt' : h0.length < h'.length :=
                          lt_of_lt_of_le hcalt hlen2
                        have h2ca : h2[h0.length]? = h'[h0.length]? :=
                          hmask2 _ (Or.inr ⟨le_refl _, hca_lt'⟩)
                        have hof2 : ownFields h2 (JVal.ref h0.length) = fsR := by
                          simp only [ownFields]
                          rw [h2ca, hgetR2]
                        have hlkR : lookupF fsR k0 = some rk := by
                          rw [hunproc2 k0 hndc.1]
                          exact lookupF_setField_self _ _ _
                        have hcH : HeapClosed n h :=
                          HeapClosed_transfer hc
                            (fun a ha => hag a (lt_of_lt_of_le ha hn))
                        have hmaskInner :
                            ∀ a, a < n ∨ (h.length ≤ a ∧ a < hmid.length) →
                              h2[a]? = hmid[a]? := by
                          intro a hcase
                          have haout : a < n ∨ (h0.length ≤ a ∧ a < h'.length) := by
                            rcases hcase with ha | ⟨ha1, ha2⟩
                            · exact Or.inl ha
                            · exact Or.inr ⟨le_trans (le_of_lt hlen) ha1,
                                lt_of_lt_of_le ha2 hlen2⟩
                          have e1 : h2[a]? = h'[a]? := hmask2 a haout
                          have e2 : h'[a]? = (setPropAt hmid h0.length k0 rk)[a]? := by
                            apply hpres2 a
                            · rw [setPropAt_length]
                              rcases hcase with ha | ⟨_, ha2⟩
                              · exact lt_trans (lt_of_lt_of_le ha hn)
                                  (lt_of_lt_of_le hlen hstpres.1)
                              · exact ha2
                            · rcases hcase with ha | ⟨ha1, _⟩
                              · omega
                              · omega
                          have e3 : (setPropAt hmid h0.length k0 rk)[a]? = hmid[a]? := by
                            apply setPropAt_get_ne
                            rcases hcase with ha | ⟨ha1, _⟩
                            · omega
                            · omega
                          rw [e1, e2, e3]
                        have hstc : selectTransform fenv tu h child s0 =
                            Except.ok (hmid, rk) := by
                          rw [← hkeyedeq]
                          exact hst
                        have hshareInner := STshare fenv tu hp s0 h2 hwfc.1 hcH
                          hchildB (le_trans hn (le_of_lt hlen)) hstc hmaskInner p hup
                        simp only [getPath, hof2, hlkR, hlk0]
                        rw [hshareInner]
                        exact getPath_stable p h0 h child n hc hchildB
                          (fun a ha => hag a (lt_of_lt_of_le ha hn))
                      · rw [if_neg hkk] at hlk
                        exact hshare2 h2 hmask2 k sub p hlk hup

end

/-! ### Shared concrete material for examples and witnesses -/

/-- The identity function environment (no function payloads involved). -/
def idFenv : FEnv := fun _ h v => (h, v)

theorem idFenv_pure : PureFenv idFenv := fun _ _ _ => presBelow_refl _ _

def personStr : String := "person"
def addressStr : String := "address"
def permanentStr : String := "permanent"
def temporaryStr : String := "temporary"
def nameStr : String := "name"
def johnStr : String := "John Cena"
def nepalStr : String := "Nepal"
def chinaStr : String := "China"
def holyStr : String := "Holy land"
def aKey : String := "a"
def bKey : String := "b"
def zeroStr : String := "0"
def ptrA : String := "#/a"
def ptrB : String := "#/b"

/-- The heap of the read-me example object
`{person: {name: 'John Cena', address: {permanent: 'Nepal', temporary: 'China'}}}`;
the object itself is `JVal.ref 2`. -/
def exHeap : Heap :=
  [Node.objN [(permanentStr, JVal.str nepalStr), (temporaryStr, JVal.str chinaStr)],
   Node.objN [(nameStr, JVal.str johnStr), (addressStr, JVal.ref 0)],
   Node.objN [(personStr, JVal.ref 1)]]

/-- The selector `{person: {address: {permanent: '#'}}}`. -/
def exSel : Sel :=
  Sel.node (SelFields.cons personStr
    (Sel.node (SelFields.cons addressStr
      (Sel.node (SelFields.cons permanentStr (Sel.marker hashStr) SelFields.nil))
      SelFields.nil))
    SelFields.nil)

/-- The session after `.set('Holy land')`. -/
def exSession : Session := opCall initialSession OpName.set (JVal.str holyStr)

/-- The heap after `apply()`: the three original cells untouched, plus the
three clones along the matched path (the result is `JVal.ref 3`). -/
def exHeapFinal : Heap :=
  [Node.objN [(permanentStr, JVal.str nepalStr), (temporaryStr, JVal.str chinaStr)],
   Node.objN [(nameStr, JVal.str johnStr), (addressStr, JVal.ref 0)],
   Node.objN [(personStr, JVal.ref 1)],
   Node.objN [(personStr, JVal.ref 4)],
   Node.objN [(nameStr, JVal.str johnStr), (addressStr, JVal.ref 5)],
   Node.objN [(permanentStr, JVal.str holyStr), (temporaryStr, JVal.str chinaStr)]]

theorem exRun : applySession idFenv exHeap (JVal.ref 2) exSel exSession =
    Except.ok (exHeapFinal, JVal.ref 3) := rfl

/-! ### Claim theorems -/

/-- C1: Structural sharing — for every valid (selector, object) pair and
every `apply()` call that returns, every subtree of the original object
not addressed by any selector path is present in the result as the very
same reference: reading the result along any untouched path yields exactly
the value (for objects/arrays: the address) found in the original, and
every original heap cell is bit-for-bit unchanged in the result heap. -/
theorem structural_sharing
    (fenv : FEnv) (h : Heap) (node : JVal) (sel : Sel) (s : Session)
    (h' : Heap) (r : JVal)
    (hp : PureFenv fenv) (hwf : selWFb sel = true)
    (hcl : heapClosedB h.length h = true) (hv : valBelowB h.length node = true)
    (hrun : applySession fenv h node sel s = Except.ok (h', r)) :
    (∀ a, a < h.length → h'[a]? = h[a]?) ∧
    ∀ p, untouchedB sel p = true → getPath h' r p = getPath h node p := by
  have hST : selectTransform fenv s.toUpdate h node sel = Except.ok (h', r) := hrun
  constructor
  · exact (STpres fenv s.toUpdate hp sel hST).2
  · intro p hup
    exact STshare fenv s.toUpdate hp sel h' hwf (heapClosedB_closed hcl) hv
      (le_refl _) hST (fun _ _ => rfl) p hup

theorem structural_sharing_witness :
    exHeapFinal[0]? = exHeap[0]? ∧
    getPath exHeapFinal (JVal.ref 3) [personStr, nameStr] =
      getPath exHeap (JVal.ref 2) [personStr, nameStr] := by
  have hmain := structural_sharing idFenv exHeap (JVal.ref 2) exSel exSession
    exHeapFinal (JVal.ref 3) idFenv_pure (by decide) (by decide) (by decide) exRun
  exact ⟨hmain.1 0 (by decide), hmain.2 [personStr, nameStr] (by decide)⟩

/-- C2: Immutability — with a pure `pipe` payload environment, a returning
`apply()` leaves every pre-existing heap cell unchanged, so the original
object, re-read through the result heap, is identical to a snapshot taken
before the call (here: path-for-path equal reads). -/
theorem apply_never_mutates
    (fenv : FEnv) (h : Heap) (node : JVal) (sel : Sel) (s : Session)
    (h' : Heap) (r : JVal)
    (hp : PureFenv fenv)
    (hrun : applySession fenv h node sel s = Except.ok (h', r)) :
    (∀ a, a < h.length → h'[a]? = h[a]?) ∧
    (heapClosedB h.length h = true → valBelowB h.length node = true →
      ∀ p, getPath h' node p = getPath h node p) := by
  have hpres := STpres fenv s.toUpdate hp sel hrun
  refine ⟨hpres.2, fun hcl hv p => ?_⟩
  exact getPath_stable p h h' node h.length (heapClosedB_closed hcl) hv hpres.2

theorem apply_never_mutates_witness :
    exHeapFinal[1]? = exHeap[1]? ∧
    getPath exHeapFinal (JVal.ref 2) [personStr, addressStr, permanentStr] =
      getPath exHeap (JVal.ref 2) [personStr, addressStr, permanentStr] := by
  have hmain := apply_never_mutates idFenv exHeap (JVal.ref 2) exSel exSession
    exHeapFinal (JVal.ref 3) idFenv_pure exRun
  exact ⟨hmain.1 1 (by decide),
    hmain.2 (by decide) (by decide) [personStr, addressStr, permanentStr]⟩

/-- C3: End-to-end example — object
`{person: {name: 'John Cena', address: {permanent: 'Nepal', temporary: 'China'}}}`,
selector `{person: {address: {permanent: '#'}}}`, session
`.set('Holy land').apply()` returns
`{person: {name: 'John Cena', address: {permanent: 'Holy land', temporary: 'China'}}}`,
with `result.person.address` a different reference (address 5) from
`original.person.address` (address 0), while the untouched leaves
`'John Cena'` and `'China'` and the original cells are preserved unchanged. -/
theorem end_to_end_example :
    applySession idFenv exHeap (JVal.ref 2) exSel exSession =
      Except.ok (exHeapFinal, JVal.ref 3) ∧
    getPath exHeapFinal (JVal.ref 3) [personStr, addressStr, permanentStr] =
      some (JVal.str holyStr) ∧
    getPath exHeapFinal (JVal.ref 3) [personStr, addressStr, temporaryStr] =
      some (JVal.str chinaStr) ∧
    getPath exHeapFinal (JVal.ref 3) [personStr, nameStr] =
      some (JVal.str johnStr) ∧
    getPath exHeapFinal (JVal.ref 3) [personStr, addressStr] = some (JVal.ref 5) ∧
    getPath exHeap (JVal.ref 2) [personStr, addressStr] = some (JVal.ref 0) ∧
    JVal.ref 5 ≠ JVal.ref 0 ∧
    exHeapFinal[0]? = exHeap[0]? := by
  refine ⟨exRun, ?_⟩
  decide

/-- If the ledger is non-empty and some selected key's value in the clone
is missing, null or undefined, the branch loop finishes without error and
returns the original node — discarding every sibling update already
written into the clone. -/
theorem BLmissing (fenv : FEnv) (tu : Ledger) (hp : PureFenv fenv)
    (fs : SelFields) :
    ∀ {h : Heap} {ca : Nat} {orig : JVal} (fsC : List (String × JVal)),
      tu ≠ [] → ca < h.length → h[ca]? = some (Node.objN fsC) →
      (∃ k sub, sfLookup fs k = some sub ∧
        (lookupF fsC k = none ∨ lookupF fsC k = some JVal.null ∨
         lookupF fsC k = some JVal.undef)) →
      ∃ h', branchLoop fenv tu h ca orig fs = Except.ok (h', orig) := by
  cases fs with
  | nil =>
      intro h ca orig fsC _ _ _ hm
      obtain ⟨k, sub, hlk, _⟩ := hm
      simp [sfLookup] at hlk
  | cons k0 s0 rest =>
      intro h ca orig fsC htu hca hget hm
      obtain ⟨k, sub, hlk, hbad⟩ := hm
      have hofh : ownFields h (JVal.ref ca) = fsC := by
        simp only [ownFields]
        rw [hget]
      simp only [branchLoop]
      simp only [sfLookup] at hlk
      by_cases hkk : k0 = k
      · rw [if_pos hkk] at hlk
        have hkeyed : getProp h (JVal.ref ca) k0 = JVal.undef ∨
            getProp h (JVal.ref ca) k0 = JVal.null := by
          unfold getProp
          rw [hofh, hkk]
          rcases hbad with hb | hb | hb <;> rw [hb] <;> simp [Option.getD]
        exact ⟨h, by rw [if_pos hkeyed]⟩
      · rw [if_neg hkk] at hlk
        by_cases habort : getProp h (JVal.ref ca) k0 = JVal.undef ∨
            getProp h (JVal.ref ca) k0 = JVal.null
        · exact ⟨h, by rw [if_pos habort]⟩
        · cases hst : selectTransform fenv tu h (getProp h (JVal.ref ca) k0) s0 with
          | error e =>
              exact absurd (STerr fenv tu s0 hst).1 htu
          | ok pr =>
              rcases pr with ⟨h2, rk⟩
              have hstpres := STpres fenv tu hp s0 hst
              have hca2 : ca < (setPropAt h2 ca k0 rk).length := by
                rw [setPropAt_length]
                exact lt_of_lt_of_le hca hstpres.1
              have hget2 : (setPropAt h2 ca k0 rk)[ca]? =
                  some (Node.objN (setField fsC k0 rk)) := by
                unfold setPropAt
                rw [hstpres.2 ca hca, hget]
                exact gq_set_self _ _ _ (lt_of_lt_of_le hca hstpres.1)
              have hkne : k ≠ k0 := fun he => hkk he.symm
              have hbad2 : lookupF (setField fsC k0 rk) k = none ∨
                  lookupF (setField fsC k0 rk) k = some JVal.null ∨
                  lookupF (setField fsC k0 rk) k = some JVal.undef := by
                rw [lookupF_setField_ne _ _ _ _ hkne]
                exact hbad
              obtain ⟨h', hbl⟩ := BLmissing fenv tu hp rest
                (setField fsC k0 rk) htu hca2 hget2 ⟨k, sub, hlk, hbad2⟩
              refine ⟨h', ?_⟩
              rw [if_neg habort]
              exact hbl

/-- C4: Abort on missing path — in the branch case, if any selector key's
child in the original node is missing, null or undefined, `apply()`'s
cloner returns the original node reference (`node` itself) for that whole
branch, silently discarding sibling updates already applied to the clone,
and raises no error (the ledger is non-empty, so the leaf error cannot
fire either). -/
theorem abort_on_missing_path
    (fenv : FEnv) (tu : Ledger) (h : Heap) (node : JVal) (fs : SelFields)
    (hp : PureFenv fenv) (htu : tu ≠ [])
    (hm : ∃ k sub, sfLookup fs k = some sub ∧
      (lookupF (ownFields h node) k = none ∨
       lookupF (ownFields h node) k = some JVal.null ∨
       lookupF (ownFields h node) k = some JVal.undef)) :
    ∃ h', selectTransform fenv tu h node (Sel.node fs) = Except.ok (h', node) := by
  simp only [selectTransform]
  exact BLmissing fenv tu hp fs (ownFields h node) htu (by simp)
    (gq_append_len _ _) hm

/-- The witness object is `{a: 1}` with selector `{a: '#', b: '#'}` and a
queued `set(9)`: the sibling key `a` is rewritten to `9` in the clone
(address 1 of the final heap), then the missing key `b` aborts the branch
and the original `{a: 1}` (address 0) is returned. -/
theorem abort_on_missing_path_witness :
    (∃ h', selectTransform idFenv [(defaultStr, ⟨OpName.set, JVal.num 9⟩)]
      [Node.objN [(aKey, JVal.num 1)]] (JVal.ref 0)
      (Sel.node (SelFields.cons aKey (Sel.marker hashStr)
        (SelFields.cons bKey (Sel.marker hashStr) SelFields.nil))) =
      Except.ok (h', JVal.ref 0)) ∧
    selectTransform idFenv [(defaultStr, ⟨OpName.set, JVal.num 9⟩)]
      [Node.objN [(aKey, JVal.num 1)]] (JVal.ref 0)
      (Sel.node (SelFields.cons aKey (Sel.marker hashStr)
        (SelFields.cons bKey (Sel.marker hashStr) SelFields.nil))) =
      Except.ok ([Node.objN [(aKey, JVal.num 1)], Node.objN [(aKey, JVal.num 9)]],
        JVal.ref 0) := by
  constructor
  · exact abort_on_missing_path idFenv [(defaultStr, ⟨OpName.set, JVal.num 9⟩)]
      [Node.objN [(aKey, JVal.num 1)]] (JVal.ref 0)
      (SelFields.cons aKey (Sel.marker hashStr)
        (SelFields.cons bKey (Sel.marker hashStr) SelFields.nil))
      idFenv_pure (by simp)
      ⟨bKey, Sel.marker hashStr, rfl, Or.inl (by decide)⟩
  · rfl

/-- C5: NoOperationQueued — `apply()` fails with the "operation required"
error exactly when traversal reaches a pointer-marker leaf while the
ledger is empty; a non-empty ledger with no matching entry returns the
leaf unchanged without error, and every error the engine can produce is
this one, arising only with an empty ledger. -/
theorem no_operation_queued
    (fenv : FEnv) (tu : Ledger) (h : Heap) (node : JVal) (s : String) :
    (isMarkerStr s = true →
      selectTransform fenv [] h node (Sel.marker s) =
        Except.error errNoOperation) ∧
    (tu ≠ [] → s = hashStr → lookupF tu defaultStr = none →
      selectTransform fenv tu h node (Sel.marker s) = Except.ok (h, node)) ∧
    (tu ≠ [] → isMarkerStr s = true → s ≠ hashStr → lookupF tu s = none →
      selectTransform fenv tu h node (Sel.marker s) = Except.ok (h, node)) ∧
    (∀ sel e, selectTransform fenv tu h node sel = Except.error e →
      tu = [] ∧ e = errNoOperation) := by
  refine ⟨?_, ?_, ?_, ?_⟩
  · intro hm
    simp only [selectTransform]
    rw [if_pos hm]
    rfl
  · intro htu hs hlkd
    subst hs
    have hemp : tu.isEmpty = false := by
      cases tu with
      | nil => exact absurd rfl htu
      | cons a t => rfl
    simp only [selectTransform]
    rw [if_pos (by decide)]
    unfold leafStep
    simp [hemp, hlkd]
  · intro htu hm hne hlk
    have hemp : tu.isEmpty = false := by
      cases tu with
      | nil => exact absurd rfl htu
      | cons a t => rfl
    simp only [selectTransform]
    rw [if_pos hm]
    unfold leafStep
    simp [hemp, hne, hlk]
  · intro sel e hrun
    exact STerr fenv tu sel hrun

theorem no_operation_queued_witness :
    selectTransform idFenv [] [] (JVal.num 5) (Sel.marker hashStr) =
      Except.error errNoOperation ∧
    selectTransform idFenv [(ptrA, ⟨OpName.set, JVal.num 9⟩)] [] (JVal.num 5)
      (Sel.marker hashStr) = Except.ok ([], JVal.num 5) ∧
    selectTransform idFenv [(ptrA, ⟨OpName.set, JVal.num 9⟩)] [] (JVal.num 5)
      (Sel.marker ptrB) = Except.ok ([], JVal.num 5) := by
  refine ⟨?_, ?_, ?_⟩
  · exact (no_operation_queued idFenv [] [] (JVal.num 5) hashStr).1 (by decide)
  · exact (no_operation_queued idFenv [(ptrA, ⟨OpName.set, JVal.num 9⟩)] []
      (JVal.num 5) hashStr).2.1 (by simp) rfl (by decide)
  · exact (no_operation_queued idFenv [(ptrA, ⟨OpName.set, JVal.num 9⟩)] []
      (JVal.num 5) ptrB).2.2.1 (by simp) (by decide) (by decide) (by decide)

/-- C6: Registry no-op leniency and totality — the six registry operations
are total Lean functions by construction (their type admits no exception;
`pipe`'s totality is relative to its function payload, as immutability is
to its purity), and in every documented no-op case each returns the
original old value as the very same `JVal` (reference identity for
objects/arrays) with the heap untouched — no clone is allocated. -/
theorem registry_noop_leniency (fenv : FEnv) (h : Heap) (old v : JVal) :
    (set h old JVal.null = (h, old) ∧ set h old JVal.undef = (h, old)) ∧
    ((v = JVal.null ∨ v = JVal.undef ∨ isObjType v = false ∨ ownFields h v = []) →
      merge h old v = (h, old)) ∧
    ((asArr h v = none ∨ asArr h old = none ∨ asArr h v = some []) →
      extend h old v = (h, old)) ∧
    ((v = JVal.null ∨ v = JVal.undef ∨ asArr h old = none) →
      append h old v = (h, old)) ∧
    ((v = JVal.null ∨ v = JVal.undef) → deleteOp h old v = (h, old)) ∧
    ((old = JVal.null ∨ old = JVal.undef ∨ (∀ fid, v ≠ JVal.fn fid)) →
      pipe fenv h old v = (h, old)) := by
  refine ⟨⟨?_, ?_⟩, ?_, ?_, ?_, ?_, ?_⟩
  · unfold set
    rw [if_pos (Or.inl rfl)]
  · unfold set
    rw [if_pos (Or.inr rfl)]
  · intro hd
    unfold merge
    rcases hd with hd | hd | hd | hd
    · rw [if_pos (Or.inl hd)]
    · rw [if_pos (Or.inr (Or.inl hd))]
    · rw [if_pos (Or.inr (Or.inr hd))]
    · by_cases h1 : v = JVal.null ∨ v = JVal.undef ∨ isObjType v = false
      · rw [if_pos h1]
      · rw [if_neg h1, if_pos (by rw [hd]; rfl)]
  · intro hd
    unfold extend
    cases hv2 : asArr h v with
    | none =>
        cases ho2 : asArr h old with
        | none => rfl
        | some os => rfl
    | some ns =>
        cases ho2 : asArr h old with
        | none => rfl
        | some os =>
            rcases hd with hd | hd | hd
            · rw [hv2] at hd
              exact absurd hd (by simp)
            · rw [ho2] at hd
              exact absurd hd (by simp)
            · rw [hv2] at hd
              injection hd with hd2
              subst hd2
              simp
  · intro hd
    unfold append
    rcases hd with hd | hd | hd
    · rw [if_pos (Or.inr hd)]
    · rw [if_pos (Or.inl hd)]
    · by_cases hnv : v = JVal.undef ∨ v = JVal.null
      · rw [if_pos hnv]
      · rw [if_neg hnv, hd]
  · intro hd
    unfold deleteOp
    rw [if_pos hd]
  · intro hd
    unfold pipe
    rcases hd with hd | hd | hd
    · rw [if_pos (Or.inl hd)]
    · rw [if_pos (Or.inr hd)]
    · by_cases hnv : old = JVal.null ∨ old = JVal.undef
      · rw [if_pos hnv]
      · rw [if_neg hnv]
        cases v with
        | fn fid => exact absurd rfl (hd fid)
        | null => rfl
        | undef => rfl
        | str s2 => rfl
        | num m => rfl
        | bool b => rfl
        | ref a => rfl

theorem registry_noop_leniency_witness :
    set [] (JVal.num 1) JVal.null = ([], JVal.num 1) ∧
    merge [] (JVal.num 1) (JVal.num 2) = ([], JVal.num 1) ∧
    extend [] (JVal.num 1) JVal.null = ([], JVal.num 1) ∧
    append [] (JVal.num 1) (JVal.num 3) = ([], JVal.num 1) ∧
    deleteOp [] (JVal.num 1) JVal.null = ([], JVal.num 1) ∧
    pipe idFenv [] (JVal.num 1) (JVal.num 0) = ([], JVal.num 1) := by
  refine ⟨(registry_noop_leniency idFenv [] (JVal.num 1) JVal.null).1.1,
    (registry_noop_leniency idFenv [] (JVal.num 1) (JVal.num 2)).2.1 (by decide),
    (registry_noop_leniency idFenv [] (JVal.num 1) JVal.null).2.2.1 (by decide),
    (registry_noop_leniency idFenv [] (JVal.num 1) (JVal.num 3)).2.2.2.1 (by decide),
    (registry_noop_leniency idFenv [] (JVal.num 1) JVal.null).2.2.2.2.1 (by decide),
    (registry_noop_leniency idFenv [] (JVal.num 1) (JVal.num 0)).2.2.2.2.2
      (Or.inr (Or.inr (fun fid he => JVal.noConfusion he)))⟩

theorem validPointer_ne_hash (p : String) (hv : validPointer p = true) :
    p ≠ hashStr := by
  intro he
  rw [he] at hv
  exact absurd hv (by decide)

/-- C7: Pointer resolution is exact and scoped — recording under `"#"`
stores into the reserved `default` slot and the leaf `"#"` resolves from
it; any other pointer id is stored and resolved by exact string key; and
two distinct pointer ids in one pass are independent: an operation
recorded under pointer `a` never changes the value at a leaf marked
`b ≠ a` (the leaf comes back unchanged). -/
theorem pointer_resolution_scoped :
    (∀ (tu : Ledger) (e : UpdateEntry),
      recordUpdate tu hashStr e = setField tu defaultStr e) ∧
    (∀ (tu : Ledger) (p : String) (e : UpdateEntry),
      validPointer p = true → recordUpdate tu p e = setField tu p e) ∧
    (∀ (fenv : FEnv) (tu : Ledger) (h : Heap) (node : JVal) (u : UpdateEntry),
      lookupF tu defaultStr = some u →
      selectTransform fenv tu h node (Sel.marker hashStr) =
        Except.ok (operationalMapper fenv u.operation h node u.value)) ∧
    (∀ (fenv : FEnv) (tu : Ledger) (h : Heap) (node : JVal) (m : String)
      (u : UpdateEntry),
      isMarkerStr m = true → m ≠ hashStr → lookupF tu m = some u →
      selectTransform fenv tu h node (Sel.marker m) =
        Except.ok (operationalMapper fenv u.operation h node u.value)) ∧
    (∀ (fenv : FEnv) (h : Heap) (node : JVal) (a b : String) (opn : OpName)
      (v : JVal),
      validPointer a = true → validPointer b = true → a ≠ b →
      selectTransform fenv (recordUpdate [] a ⟨opn, v⟩) h node (Sel.marker b) =
        Except.ok (h, node)) := by
  refine ⟨?_, ?_, ?_, ?_, ?_⟩
  · intro tu e
    unfold recordUpdate
    rw [if_pos rfl]
  · intro tu p e hvp
    unfold recordUpdate
    by_cases hph : p = hashStr
    · exact absurd (hph ▸ hvp) (by decide)
    · rw [if_neg hph, if_pos hvp]
  · intro fenv tu h node u hlk
    have htu : tu ≠ [] := by
      intro he
      rw [he] at hlk
      exact absurd hlk (by simp [lookupF])
    have hemp : tu.isEmpty = false := by
      cases tu with
      | nil => exact absurd rfl htu
      | cons x t => rfl
    simp only [selectTransform]
    rw [if_pos (by decide)]
    unfold leafStep
    simp [hemp, hlk]
  · intro fenv tu h node m u hm hne hlk
    have htu : tu ≠ [] := by
      intro he
      rw [he] at hlk
      exact absurd hlk (by simp [lookupF])
    have hemp : tu.isEmpty = false := by
      cases tu with
      | nil => exact absurd rfl htu
      | cons x t => rfl
    simp only [selectTransform]
    rw [if_pos hm]
    unfold leafStep
    simp [hemp, hne, hlk]
  · intro fenv h node a b opn v hva hvb hab
    have ha' : a ≠ hashStr := validPointer_ne_hash a hva
    have hb' : b ≠ hashStr := validPointer_ne_hash b hvb
    have hmb : isMarkerStr b = true := by
      unfold validPointer at hvb
      simp only [Bool.and_eq_true] at hvb
      exact hvb.1
    have hrec : recordUpdate [] a ⟨opn, v⟩ = [(a, ⟨opn, v⟩)] := by
      unfold recordUpdate
      rw [if_neg ha', if_pos hva]
      rfl
    rw [hrec]
    simp only [selectTransform]
    rw [if_pos hmb]
    unfold leafStep
    simp [lookupF, hb', hab]

theorem pointer_resolution_scoped_witness :
    recordUpdate [] hashStr ⟨OpName.set, JVal.num 1⟩ =
      [(defaultStr, ⟨OpName.set, JVal.num 1⟩)] ∧
    recordUpdate [] ptrA ⟨OpName.set, JVal.num 1⟩ =
      [(ptrA, ⟨OpName.set, JVal.num 1⟩)] ∧
    selectTransform idFenv [(defaultStr, ⟨OpName.set, JVal.num 7⟩)] []
      (JVal.num 5) (Sel.marker hashStr) = Except.ok ([], JVal.num 7) ∧
    selectTransform idFenv [(ptrA, ⟨OpName.set, JVal.num 7⟩)] []
      (JVal.num 5) (Sel.marker ptrA) = Except.ok ([], JVal.num 7) ∧
    selectTransform idFenv (recordUpdate [] ptrA ⟨OpName.set, JVal.num 7⟩) []
      (JVal.num 5) (Sel.marker ptrB) = Except.ok ([], JVal.num 5) := by
  refine ⟨?_, ?_, ?_, ?_, ?_⟩
  · exact pointer_resolution_scoped.1 [] ⟨OpName.set, JVal.num 1⟩
  · exact pointer_resolution_scoped.2.1 [] ptrA ⟨OpName.set, JVal.num 1⟩ (by decide)
  · exact pointer_resolution_scoped.2.2.1 idFenv
      [(defaultStr, ⟨OpName.set, JVal.num 7⟩)] [] (JVal.num 5)
      ⟨OpName.set, JVal.num 7⟩ (by decide)
  · exact pointer_resolution_scoped.2.2.2.1 idFenv
      [(ptrA, ⟨OpName.set, JVal.num 7⟩)] [] (JVal.num 5) ptrA
      ⟨OpName.set, JVal.num 7⟩ (by decide) (by decide) (by decide)
  · exact pointer_resolution_scoped.2.2.2.2 idFenv [] (JVal.num 5) ptrA ptrB
      OpName.set (JVal.num 7) (by decide) (by decide) (by decide)

/-- Dichotomy of the branch loop: it returns either the original node
(abort) or the clone reference, and in the latter case the final clone is
a plain object keeping the initial clone's value at every key the selector
does not mention. -/
theorem BLdich (fenv : FEnv) (tu : Ledger) (hp : PureFenv fenv)
    (fs : SelFields) :
    ∀ {h : Heap} {ca : Nat} {orig : JVal} {h' : Heap} {r : JVal}
      (fsC : List (String × JVal)),
      ca < h.length → h[ca]? = some (Node.objN fsC) →
      branchLoop fenv tu h ca orig fs = Except.ok (h', r) →
      r = orig ∨ (r = JVal.ref ca ∧ ∃ fsR, h'[ca]? = some (Node.objN fsR) ∧
        ∀ k, sfLookup fs k = none → lookupF fsR k = lookupF fsC k) := by
  cases fs with
  | nil =>
      intro h ca orig h' r fsC _ hget hrun
      simp only [branchLoop, Except.ok.injEq, Prod.mk.injEq] at hrun
      refine Or.inr ⟨hrun.2.symm, fsC, ?_, fun _ _ => rfl⟩
      rw [← hrun.1]
      exact hget
  | cons k0 s0 rest =>
      intro h ca orig h' r fsC hca hget hrun
      simp only [branchLoop] at hrun
      split at hrun
      · simp only [Except.ok.injEq, Prod.mk.injEq] at hrun
        exact Or.inl hrun.2.symm
      · cases hst : selectTransform fenv tu h (getProp h (JVal.ref ca) k0) s0 with
        | error e => rw [hst] at hrun; exact absurd hrun (by simp)
        | ok pr =>
            rcases pr with ⟨h2, rk⟩
            rw [hst] at hrun
            have hstpres := STpres fenv tu hp s0 hst
            have hca2 : ca < (setPropAt h2 ca k0 rk).length := by
              rw [setPropAt_length]
              exact lt_of_lt_of_le hca hstpres.1
            have hget2 : (setPropAt h2 ca k0 rk)[ca]? =
                some (Node.objN (setField fsC k0 rk)) := by
              unfold setPropAt
              rw [hstpres.2 ca hca, hget]
              exact gq_set_self _ _ _ (lt_of_lt_of_le hca hstpres.1)
            rcases BLdich fenv tu hp rest (setField fsC k0 rk)
              hca2 hget2 hrun with hleft | ⟨hrca, fsR, hgetR, hkeep⟩
            · exact Or.inl hleft
            · refine Or.inr ⟨hrca, fsR, hgetR, ?_⟩
              intro k hlk
              simp only [sfLookup] at hlk
              by_cases hkk : k0 = k
              · rw [if_pos hkk] at hlk
                exact absurd hlk (by simp)
              · rw [if_neg hkk] at hlk
                rw [hkeep k hlk]
                exact lookupF_setField_ne _ _ _ _ (fun he => hkk he.symm)

/-- C8 (as stated) is false: the branch-case shallow clone is
`Object.assign({}, node)`, which is always a plain object. For the array
node `[1]` under selector `{0: '#'}` with a queued `set(9)`, the original
node (address 0) is an array but the result container (address 1) is a
plain object `{'0': 9}`, not an array. -/
theorem clone_kind_counterexample :
    selectTransform idFenv [(defaultStr, ⟨OpName.set, JVal.num 9⟩)]
      [Node.arrN [JVal.num 1]] (JVal.ref 0)
      (Sel.node (SelFields.cons zeroStr (Sel.marker hashStr) SelFields.nil)) =
      Except.ok ([Node.arrN [JVal.num 1], Node.objN [(zeroStr, JVal.num 9)]],
        JVal.ref 1) ∧
    isArrayB [Node.arrN [JVal.num 1]] (JVal.ref 0) = true ∧
    isArrayB [Node.arrN [JVal.num 1], Node.objN [(zeroStr, JVal.num 9)]]
      (JVal.ref 1) = false := ⟨rfl, rfl, rfl⟩

/-- C8 (amended): Branch-case cloning yields, for every node reached along
a matched selector path with a nested-mapping selector node, either the
original node back (abort) or a freshly allocated shallow clone that is
always a plain object — an array node is cloned into a plain object whose
index keys become string keys — carrying the same child references as the
original at every key the selector does not mention. -/
theorem clone_is_plain_object
    (fenv : FEnv) (tu : Ledger) (h : Heap) (node : JVal) (fs : SelFields)
    (h' : Heap) (r : JVal) (hp : PureFenv fenv)
    (hrun : selectTransform fenv tu h node (Sel.node fs) = Except.ok (h', r)) :
    r = node ∨ (r = JVal.ref h.length ∧ ∃ fsR,
      h'[h.length]? = some (Node.objN fsR) ∧
      ∀ k, sfLookup fs k = none →
        lookupF fsR k = lookupF (ownFields h node) k) := by
  simp only [selectTransform] at hrun
  exact BLdich fenv tu hp fs (ownFields h node) (by simp)
    (gq_append_len _ _) hrun

theorem clone_is_plain_object_witness :
    JVal.ref 1 = JVal.ref 0 ∨ (JVal.ref 1 = JVal.ref 1 ∧ ∃ fsR,
      [Node.arrN [JVal.num 1], Node.objN [(zeroStr, JVal.num 9)]][(1 : Nat)]? =
        some (Node.objN fsR) ∧
      ∀ k, sfLookup (SelFields.cons zeroStr (Sel.marker hashStr) SelFields.nil) k =
          none →
        lookupF fsR k =
          lookupF (ownFields [Node.arrN [JVal.num 1]] (JVal.ref 0)) k) := by
  exact clone_is_plain_object idFenv [(defaultStr, ⟨OpName.set, JVal.num 9⟩)]
    [Node.arrN [JVal.num 1]] (JVal.ref 0)
    (SelFields.cons zeroStr (Sel.marker hashStr) SelFields.nil)
    [Node.arrN [JVal.num 1], Node.objN [(zeroStr, JVal.num 9)]] (JVal.ref 1)
    idFenv_pure rfl

/-- C9: Last write wins — re-recording under the same pointer id
overwrites the previous ledger entry (no history is kept), so two
operation calls without an intervening `of()` leave exactly the second
entry, and `apply()` reflects only the later operation. -/
theorem last_write_wins :
    (∀ (tu : Ledger) (p : String) (e1 e2 : UpdateEntry),
      recordUpdate (recordUpdate tu p e1) p e2 = recordUpdate tu p e2) ∧
    (∀ (s : Session) (n1 : OpName) (v1 : JVal) (n2 : OpName) (v2 : JVal),
      (opCall (opCall s n1 v1) n2 v2).toUpdate = (opCall s n2 v2).toUpdate) ∧
    (∀ (fenv : FEnv) (h : Heap) (orig : JVal) (sel : Sel) (s : Session)
      (n1 : OpName) (v1 : JVal) (n2 : OpName) (v2 : JVal),
      applySession fenv h orig sel (opCall (opCall s n1 v1) n2 v2) =
        applySession fenv h orig sel (opCall s n2 v2)) := by
  have h1 : ∀ (tu : Ledger) (p : String) (e1 e2 : UpdateEntry),
      recordUpdate (recordUpdate tu p e1) p e2 = recordUpdate tu p e2 := by
    intro tu p e1 e2
    by_cases hph : p = hashStr
    · simp [recordUpdate, hph, setField_setField]
    · by_cases hv : validPointer p = true
      · simp [recordUpdate, hph, hv, setField_setField]
      · simp [recordUpdate, hph, hv]
  have h2 : ∀ (s : Session) (n1 : OpName) (v1 : JVal) (n2 : OpName) (v2 : JVal),
      (opCall (opCall s n1 v1) n2 v2).toUpdate = (opCall s n2 v2).toUpdate := by
    intro s n1 v1 n2 v2
    simp only [opCall]
    exact h1 s.toUpdate s.targetPointer ⟨n1, v1⟩ ⟨n2, v2⟩
  refine ⟨h1, h2, ?_⟩
  intro fenv h orig sel s n1 v1 n2 v2
  unfold applySession
  rw [h2 s n1 v1 n2 v2]

/-- C10: `merge` treats arrays as objects, not as invalid input — for any
old value and a reference to a non-empty array payload, `merge` is not a
no-op: it allocates a fresh plain object equal to
`Object.assign({}, old, arrayPayload)` (the array's index keys overwrite
the old value's keys), and the fresh reference differs from any in-heap
old value. -/
theorem merge_array_payload
    (h : Heap) (old : JVal) (a : Nat) (es : List JVal)
    (ha : h[a]? = some (Node.arrN es)) (hne : es ≠ []) :
    merge h old (JVal.ref a) =
      (h ++ [Node.objN (assignFields (assignFields [] (ownFields h old))
        (idxFields es))], JVal.ref h.length) ∧
    (valBelowB h.length old = true → JVal.ref h.length ≠ old) := by
  have hof : ownFields h (JVal.ref a) = idxFields es := by
    simp only [ownFields]
    rw [ha]
  constructor
  · unfold merge
    rw [if_neg (by simp [isObjType])]
    rw [if_neg ?_, hof]
    rw [hof]
    cases es with
    | nil => exact absurd rfl hne
    | cons e t => simp [idxFields, List.enum]
  · intro hb he
    rw [← he] at hb
    simp [valBelowB] at hb

theorem merge_array_payload_witness :
    merge [Node.objN [(aKey, JVal.num 1)], Node.arrN [JVal.num 5, JVal.num 6]]
      (JVal.ref 0) (JVal.ref 1) =
      ([Node.objN [(aKey, JVal.num 1)], Node.arrN [JVal.num 5, JVal.num 6]] ++
        [Node.objN (assignFields (assignFields []
          (ownFields [Node.objN [(aKey, JVal.num 1)],
            Node.arrN [JVal.num 5, JVal.num 6]] (JVal.ref 0)))
          (idxFields [JVal.num 5, JVal.num 6]))], JVal.ref 2) ∧
    JVal.ref 2 ≠ JVal.ref 0 := by
  have hmain := merge_array_payload
    [Node.objN [(aKey, JVal.num 1)], Node.arrN [JVal.num 5, JVal.num 6]]
    (JVal.ref 0) 1 [JVal.num 5, JVal.num 6] rfl (by simp)
  exact ⟨hmain.1, hmain.2 (by decide)⟩

end JsImmutable
